import Mathlib

/-!
Verification of the real-time market-data synchronization layer of the
DeFi analytics client: the WebSocket store (connection lifecycle, bounded
event buffers, subscription registry, message router), the arbitrage
reconciliation memos in `useArbitrage` / `ArbitragePanel`, and the yield
aggregation memo in `useYieldData`, shallowly embedded as pure Lean
functions over explicit state.
-/

namespace DeFi

/-- An arbitrage record, keeping the fields the merge / router code reads:
`opportunity_id` (dedup identity), `token_symbol` (used by the high-value
toast) and `profit_percent` (ranking field and toast threshold). -/
structure Opp where
  opportunity_id : Nat
  token_symbol : String
  profit_percent : Rat
deriving DecidableEq, Repr

/-- One element of the `arbitrageAlerts` buffer as the merge memos see it:
either a plain object, or a string together with the outcome of
`JSON.parse` on it (`none` models a parse that throws). -/
inductive WsAlert where
  | obj (o : Opp)
  | str (parsed : Option Opp)
deriving DecidableEq, Repr

/-- `typeof alert === 'string' ? JSON.parse(alert) : alert`, with `none`
for a parse that throws. -/
def parseAlert : WsAlert → Option Opp
  | .obj o => some o
  | .str p => p

/-- `useArbitrage`: `wsAlerts.map(parse-with-try/catch-to-null).filter(Boolean)`. -/
def hookWsOpps (alerts : List WsAlert) : List Opp :=
  alerts.filterMap parseAlert

/-- The `reduce`-based deduplication shared by both merge memos: push an
element onto the accumulator only when no already-kept element has the
same `opportunity_id`. -/
def mergeDedup (l : List Opp) : List Opp :=
  l.foldl
    (fun acc opp =>
      if acc.any (fun o => o.opportunity_id == opp.opportunity_id) then acc
      else acc ++ [opp])
    []

/-- The descending order on `profit_percent` realised by the comparator
`(a, b) => b.profit_percent - a.profit_percent`. -/
def profitGE (a b : Opp) : Prop :=
  b.profit_percent ≤ a.profit_percent

instance : DecidableRel profitGE := fun a b =>
  inferInstanceAs (Decidable (b.profit_percent ≤ a.profit_percent))

instance : IsTotal Opp profitGE :=
  ⟨fun a b =>
    (le_total b.profit_percent a.profit_percent).imp (fun h => h) (fun h => h)⟩

instance : IsTrans Opp profitGE :=
  ⟨fun _ _ _ h h' => le_trans h' h⟩

/-- The stable descending sort `unique.sort((a, b) => b.profit_percent - a.profit_percent)`. -/
def sortByProfitDesc (l : List Opp) : List Opp :=
  l.insertionSort profitGE

/-- The `opportunities` memo of `useArbitrage`: parse the WebSocket
alerts (dropping the unparseable ones), concatenate them before the API
records, deduplicate by `opportunity_id`, sort descending by
`profit_percent`. -/
def reconcile (wsAlerts : List WsAlert) (apiOpps : List Opp) : List Opp :=
  sortByProfitDesc (mergeDedup (hookWsOpps wsAlerts ++ apiOpps))

/-- The specification's description of the dedup pass: iterate in order
and keep an element only if its identity has not been seen yet. -/
def dedupFirstSeen (seen : List Nat) : List Opp → List Opp
  | [] => []
  | o :: l =>
    if o.opportunity_id ∈ seen then dedupFirstSeen seen l
    else o :: dedupFirstSeen (o.opportunity_id :: seen) l


/-- `ArbitragePanel`'s `arbitrageAlerts.map(...)` pass: the string alerts
go through `JSON.parse` with no `try`/`catch`, so the whole map throws
(`none`) as soon as one string alert fails to parse. -/
def parseAll : List WsAlert → Option (List Opp)
  | [] => some []
  | a :: l =>
    match parseAlert a, parseAll l with
    | some b, some bs => some (b :: bs)
    | _, _ => none

/-- The `allOpportunities` memo of `ArbitragePanel`: the same dedup and
sort as `useArbitrage`, but over the throwing parse pass. -/
def allOpportunities (alerts : List WsAlert) (apiOpps : List Opp) : Option (List Opp) :=
  (parseAll alerts).map fun wsOpps =>
    sortByProfitDesc (mergeDedup (wsOpps ++ apiOpps))

/-- A price tick payload, keeping the fields the chart reads. -/
structure PriceRec where
  symbol : String
  price : Rat
deriving DecidableEq, Repr

/-- A JavaScript numeric field that may arrive either as a number or as a
decimal string; a string carries the value `parseFloat` extracts from it
(`none` models NaN, i.e. a string `parseFloat` cannot parse). -/
inductive JsNum where
  | num (q : Rat)
  | str (parsed : Option Rat)
deriving DecidableEq, Repr

/-- `parseFloat` applied to a number-or-string field: a JS double that is
either an exact value or NaN (`none`). -/
def parseFloatJs : JsNum → Option Rat
  | .num q => some q
  | .str p => p

/-- NaN-propagating addition of JS doubles (`NaN + x = NaN`). -/
def jsAdd : Option Rat → Option Rat → Option Rat
  | some a, some b => some (a + b)
  | _, _ => none

/-- A yield record, keeping the fields the aggregation memo reads:
grouping keys `protocol_name` and `chain`, the ranking field `apy`
(always numeric — the code adds it without `parseFloat`), and `tvl`,
which may arrive as a number or a string. -/
structure YieldRec where
  protocol_name : String
  chain : String
  apy : Rat
  tvl : JsNum
deriving DecidableEq, Repr

/-- The zustand store state plus the transport/timer context around it:
`wsAlive` is `ws !== null` in the store, `wsOpen` is
`ws.readyState === WebSocket.OPEN`, and `pendingReconnects` counts the
reconnect `setTimeout`s scheduled by `onclose` and not yet fired. -/
structure WSState where
  wsAlive : Bool
  wsOpen : Bool
  connected : Bool
  priceUpdates : List PriceRec
  arbitrageAlerts : List Opp
  yieldUpdates : List YieldRec
  subscriptions : List String
  pendingReconnects : Nat
deriving DecidableEq, Repr

/-- The store state at initialization: no socket, empty buffers, empty
subscription set, no timers. -/
def initWS : WSState :=
  ⟨false, false, false, [], [], [], [], 0⟩

/-- Outbound requests sent over the socket. -/
inductive OutMsg where
  | sub (channels : List String)
  | unsub (channels : List String)
  | ping
deriving DecidableEq, Repr

/-- Observable side effects of the store's handlers. -/
inductive Eff where
  | connectAttempt
  | send (m : OutMsg)
  | notifyHighValue (d : Opp)
  | toastConn
  | toastDisc
  | toastErr
  | scheduleReconnect
deriving DecidableEq, Repr

/-- A parsed inbound message, dispatched on its `type` discriminant;
`unknown` is any other type and `malformed` a frame `JSON.parse` rejects
(caught by the surrounding `try`/`catch`). -/
inductive InMsg where
  | connected (message : String)
  | price_update (d : PriceRec)
  | arbitrage_alert (d : Opp)
  | yield_update (d : YieldRec)
  | subscribed (channels : List String)
  | pong
  | unknown (t : String)
  | malformed
deriving DecidableEq, Repr

/-- `[x, ...prev].slice(0, cap)`: prepend and truncate to capacity. -/
def insertBuf (cap : Nat) (x : α) (l : List α) : List α :=
  (x :: l).take cap

/-- Inserting a whole sequence, oldest first, into an initially empty
bounded buffer. -/
def fillBuf (cap : Nat) (xs : List α) : List α :=
  xs.foldl (fun l x => insertBuf cap x l) []

/-- The `ws.onmessage` handler: dispatch on the `type` discriminant,
prepending payloads into the matching bounded buffer and raising the
high-value toast for arbitrage alerts above the 2.0 threshold. -/
def routeMsg (m : InMsg) (st : WSState) : WSState × List Eff :=
  match m with
  | .connected _ => (st, [])
  | .price_update d =>
    ({st with priceUpdates := insertBuf 100 d st.priceUpdates}, [])
  | .arbitrage_alert d =>
    ({st with arbitrageAlerts := insertBuf 50 d st.arbitrageAlerts},
      if 2 < d.profit_percent then [.notifyHighValue d] else [])
  | .yield_update d =>
    ({st with yieldUpdates := insertBuf 50 d st.yieldUpdates}, [])
  | .subscribed _ => (st, [])
  | .pong => (st, [])
  | .unknown _ => (st, [])
  | .malformed => (st, [])

/-- `new Set([...subscriptions, ...channels])`, keeping JS `Set` insertion
order: existing members first, then each new channel not yet present. -/
def setUnion (l chs : List String) : List String :=
  chs.foldl (fun acc c => if c ∈ acc then acc else acc ++ [c]) l

/-- The events the single-threaded loop can process: the four store
operations, the transport callbacks, a scheduled reconnect timer firing,
and a heartbeat interval tick. -/
inductive Ev where
  | connectReq
  | disconnectReq
  | subscribeReq (chs : List String)
  | unsubscribeReq (chs : List String)
  | opened
  | closed
  | errored
  | msg (m : InMsg)
  | reconnectTimer
  | heartbeat
deriving DecidableEq, Repr

/-- One step of the store: the handler the event triggers, as written in
the source. -/
def step (st : WSState) (e : Ev) : WSState × List Eff :=
  match e with
  | .connectReq =>
    ({st with wsAlive := true, wsOpen := false}, [.connectAttempt])
  | .disconnectReq =>
    if st.wsAlive then
      ({st with wsAlive := false, wsOpen := false, connected := false}, [])
    else (st, [])
  | .subscribeReq chs =>
    if st.wsAlive ∧ st.wsOpen then
      ({st with subscriptions := setUnion st.subscriptions chs},
        [.send (.sub chs)])
    else (st, [])
  | .unsubscribeReq chs =>
    if st.wsAlive ∧ st.wsOpen then
      ({st with subscriptions := st.subscriptions.filter (fun c => c ∉ chs)},
        [.send (.unsub chs)])
    else (st, [])
  | .opened =>
    ({st with wsOpen := true, connected := true},
      .toastConn ::
        (if st.subscriptions.isEmpty then [] else [.send (.sub st.subscriptions)]))
  | .closed =>
    ({st with
        connected := false
        wsAlive := false
        wsOpen := false
        pendingReconnects := st.pendingReconnects + 1},
      [.toastDisc, .scheduleReconnect])
  | .errored => (st, [.toastErr])
  | .msg m => routeMsg m st
  | .reconnectTimer =>
    if 0 < st.pendingReconnects then
      ({st with
          pendingReconnects := st.pendingReconnects - 1
          wsAlive := true
          wsOpen := false}, [.connectAttempt])
    else (st, [])
  | .heartbeat =>
    if st.connected ∧ st.wsAlive ∧ st.wsOpen then (st, [.send .ping])
    else (st, [])

/-- Run a sequence of events from a state, accumulating effects in order. -/
def run (st : WSState) : List Ev → WSState × List Eff
  | [] => (st, [])
  | e :: es =>
    let (st', effs) := step st e
    let (st'', effs') := run st' es
    (st'', effs ++ effs')

/-- One rollup group as accumulated by the `forEach` pass of the
`useYieldData` stats memo: `count`, NaN-propagating `totalTvl`, and
`avgApy`, which holds the running APY sum until the final division. -/
structure Grp where
  count : Nat
  totalTvl : Option Rat
  avgApy : Rat
deriving DecidableEq, Repr

/-- `{ count: 0, totalTvl: 0, avgApy: 0 }`. -/
def Grp.zero : Grp := ⟨0, some 0, 0⟩

/-- `count++; totalTvl += parseFloat(opp.tvl); avgApy += opp.apy`. -/
def Grp.bump (g : Grp) (tvl : Option Rat) (apy : Rat) : Grp :=
  ⟨g.count + 1, jsAdd g.totalTvl tvl, g.avgApy + apy⟩

/-- The JS object used as an insertion-ordered map: create the group on
first sight of a key, update it in place afterwards. -/
def upsertGroup (m : List (String × Grp)) (key : String) (tvl : Option Rat)
    (apy : Rat) : List (String × Grp) :=
  match m with
  | [] => [(key, Grp.zero.bump tvl apy)]
  | (k, g) :: rest =>
    if k = key then (k, g.bump tvl apy) :: rest
    else (k, g) :: upsertGroup rest key tvl apy

/-- The `opportunities.forEach` accumulation pass, keyed by `keyOf`
(`protocol_name` for `byProtocol`, `chain` for `byChain`). -/
def groupAccum (keyOf : YieldRec → String) (rs : List YieldRec) :
    List (String × Grp) :=
  rs.foldl (fun m r => upsertGroup m (keyOf r) (parseFloatJs r.tvl) r.apy) []

/-- `Object.keys(m).forEach(k => m[k].avgApy /= m[k].count)`. -/
def finalizeGroups (m : List (String × Grp)) : List (String × Grp) :=
  m.map fun p => (p.1, ⟨p.2.count, p.2.totalTvl, p.2.avgApy / (p.2.count : Rat)⟩)

/-- One full rollup of the stats memo. -/
def rollup (keyOf : YieldRec → String) (rs : List YieldRec) :
    List (String × Grp) :=
  finalizeGroups (groupAccum keyOf rs)

/-- Key lookup in the insertion-ordered map. -/
def findGroup (k : String) : List (String × Grp) → Option Grp
  | [] => none
  | p :: m => if p.1 = k then some p.2 else findGroup k m

/-- The aggregated statistics object returned by the `useYieldData`
stats memo. -/
structure YieldStats where
  count : Nat
  avgApy : Rat
  maxApy : Rat
  totalTvl : Option Rat
  byProtocol : List (String × Grp)
  byChain : List (String × Grp)
deriving DecidableEq, Repr

/-- `Math.max(...xs)`; the memo only applies it to nonempty input. -/
def listMax : List Rat → Rat
  | [] => 0
  | x :: l => l.foldl max x

/-- The `stats` memo of `useYieldData`: zeros for empty input, otherwise
count, mean and max APY, NaN-propagating total TVL, and the per-protocol
and per-chain rollups. -/
def aggregateYield (rs : List YieldRec) : YieldStats :=
  if rs.isEmpty then ⟨0, 0, 0, some 0, [], []⟩
  else
    { count := rs.length
      avgApy := (rs.foldl (fun s o => s + o.apy) 0) / (rs.length : Rat)
      maxApy := listMax (rs.map (fun o => o.apy))
      totalTvl := rs.foldl (fun s o => jsAdd s (parseFloatJs o.tvl)) (some 0)
      byProtocol := rollup (fun o => o.protocol_name) rs
      byChain := rollup (fun o => o.chain) rs }

/-- Folding the group updates of all records of one key into a group. -/
def bumpAll (g : Grp) (rs : List YieldRec) : Grp :=
  rs.foldl (fun g r => g.bump (parseFloatJs r.tvl) r.apy) g

/-- What the spec says one rollup group holds for key `k`: the count of
the records with that key, their total TVL and their mean APY. -/
def groupSpec (keyOf : YieldRec → String) (rs : List YieldRec) (k : String) : Grp :=
  let sel := rs.filter (fun r => keyOf r = k)
  ⟨sel.length,
    sel.foldl (fun s r => jsAdd s (parseFloatJs r.tvl)) (some 0),
    (sel.foldl (fun s r => s + r.apy) 0) / (sel.length : Rat)⟩
end DeFi

namespace DeFi

theorem dedupFirstSeen_congr (seen seen' : List Nat)
    (h : ∀ i, i ∈ seen ↔ i ∈ seen') :
    ∀ l, dedupFirstSeen seen l = dedupFirstSeen seen' l := by
  intro l
  induction l generalizing seen seen' with
  | nil => rfl
  | cons o l ih =>
    by_cases ho : o.opportunity_id ∈ seen
    · rw [dedupFirstSeen, if_pos ho, dedupFirstSeen, if_pos ((h _).1 ho), ih seen seen' h]
    · rw [dedupFirstSeen, if_neg ho, dedupFirstSeen, if_neg (fun c => ho ((h _).2 c))]
      refine congrArg _ (ih _ _ ?_)
      intro i
      simp only [List.mem_cons]
      exact or_congr Iff.rfl (h i)

theorem mergeDedup_eq_dedupFirstSeen (l : List Opp) :
    mergeDedup l = dedupFirstSeen [] l := by
  suffices h : ∀ l acc,
      l.foldl
        (fun acc opp =>
          if acc.any (fun o => o.opportunity_id == opp.opportunity_id) then acc
          else acc ++ [opp])
        acc = acc ++ dedupFirstSeen (acc.map Opp.opportunity_id) l by
    have := h l []
    simp only [List.map_nil, List.nil_append] at this
    exact this
  intro l
  induction l with
  | nil => intro acc; simp [dedupFirstSeen]
  | cons o l ih =>
    intro acc
    by_cases ho : o.opportunity_id ∈ acc.map Opp.opportunity_id
    · have hany : acc.any (fun x => x.opportunity_id == o.opportunity_id) = true := by
        rcases List.mem_map.1 ho with ⟨x, hx, hid⟩
        exact List.any_eq_true.2 ⟨x, hx, beq_iff_eq.2 hid⟩
      simp only [List.foldl_cons, hany, if_true, dedupFirstSeen, ho, if_pos]
      exact ih acc
    · have hany : acc.any (fun x => x.opportunity_id == o.opportunity_id) = false := by
        rw [List.any_eq_false]
        intro x hx hbeq
        exact ho (List.mem_map.2 ⟨x, hx, beq_iff_eq.1 hbeq⟩)
      simp only [List.foldl_cons, hany, if_false, dedupFirstSeen, ho, if_neg, Bool.false_eq_true,
        not_false_iff]
      rw [ih (acc ++ [o]), List.append_assoc]
      refine congrArg _ (congrArg _ ?_)
      rw [dedupFirstSeen_congr]
      intro i
      simp [List.mem_append, or_comm]

theorem mem_dedupFirstSeen_not_seen {seen : List Nat} {l : List Opp} {o : Opp}
    (h : o ∈ dedupFirstSeen seen l) : o.opportunity_id ∉ seen := by
  induction l generalizing seen with
  | nil => cases h
  | cons a l ih =>
    by_cases ha : a.opportunity_id ∈ seen
    · rw [dedupFirstSeen, if_pos ha] at h
      exact ih h
    · rw [dedupFirstSeen, if_neg ha] at h
      rcases List.mem_cons.1 h with rfl | h
      · exact ha
      · intro hc
        exact ih h (List.mem_cons_of_mem _ hc)

theorem mem_of_mem_dedupFirstSeen {seen : List Nat} {l : List Opp} {o : Opp}
    (h : o ∈ dedupFirstSeen seen l) : o ∈ l := by
  induction l generalizing seen with
  | nil => cases h
  | cons a l ih =>
    by_cases ha : a.opportunity_id ∈ seen
    · rw [dedupFirstSeen, if_pos ha] at h
      exact List.mem_cons_of_mem _ (ih h)
    · rw [dedupFirstSeen, if_neg ha] at h
      rcases List.mem_cons.1 h with rfl | h
      · exact List.mem_cons_self _ _
      · exact List.mem_cons_of_mem _ (ih h)

theorem mem_dedupFirstSeen_append {seen : List Nat} {l₁ l₂ : List Opp} {o : Opp}
    (h : o ∈ dedupFirstSeen seen (l₁ ++ l₂)) :
    o ∈ l₁ ∨ (o ∈ l₂ ∧ ∀ o' ∈ l₁, o'.opportunity_id ≠ o.opportunity_id) := by
  induction l₁ generalizing seen with
  | nil =>
    right
    refine ⟨mem_of_mem_dedupFirstSeen (by simpa using h),
      fun o' ho' => absurd ho' (List.not_mem_nil o')⟩
  | cons a l₁ ih =>
    have hno : o.opportunity_id ∉ seen := mem_dedupFirstSeen_not_seen h
    rw [List.cons_append] at h
    by_cases ha : a.opportunity_id ∈ seen
    · rw [dedupFirstSeen, if_pos ha] at h
      rcases ih h with h' | ⟨h₂, hne⟩
      · exact Or.inl (List.mem_cons_of_mem _ h')
      · refine Or.inr ⟨h₂, fun o' ho' => ?_⟩
        rcases List.mem_cons.1 ho' with rfl | ho'
        · intro hc
          exact hno (hc ▸ ha)
        · exact hne o' ho'
    · rw [dedupFirstSeen, if_neg ha] at h
      rcases List.mem_cons.1 h with rfl | h
      · exact Or.inl (List.mem_cons_self _ _)
      · have hno' : o.opportunity_id ∉ a.opportunity_id :: seen :=
          mem_dedupFirstSeen_not_seen h
        rcases ih h with h' | ⟨h₂, hne⟩
        · exact Or.inl (List.mem_cons_of_mem _ h')
        · refine Or.inr ⟨h₂, fun o' ho' => ?_⟩
          rcases List.mem_cons.1 ho' with rfl | ho'
          · intro hc
            exact hno' (hc ▸ List.mem_cons_self _ _)
          · exact hne o' ho'

theorem pairwise_dedupFirstSeen (seen : List Nat) (l : List Opp) :
    (dedupFirstSeen seen l).Pairwise
      (fun a b => a.opportunity_id ≠ b.opportunity_id) := by
  induction l generalizing seen with
  | nil => exact List.Pairwise.nil
  | cons a l ih =>
    by_cases ha : a.opportunity_id ∈ seen
    · rw [dedupFirstSeen, if_pos ha]
      exact ih seen
    · rw [dedupFirstSeen, if_neg ha]
      refine List.Pairwise.cons (fun x hx => ?_) (ih _)
      have := mem_dedupFirstSeen_not_seen hx
      intro hc
      exact this (hc ▸ List.mem_cons_self _ _)

theorem dedupFirstSeen_of_distinct {seen : List Nat} {l : List Opp}
    (hseen : ∀ x ∈ l, x.opportunity_id ∉ seen)
    (hd : l.Pairwise (fun a b => a.opportunity_id ≠ b.opportunity_id)) :
    dedupFirstSeen seen l = l := by
  induction l generalizing seen with
  | nil => rfl
  | cons a l ih =>
    rw [dedupFirstSeen, if_neg (hseen a (List.mem_cons_self _ _))]
    refine congrArg _ (ih ?_ (List.Pairwise.of_cons hd))
    intro x hx
    rcases List.pairwise_cons.1 hd with ⟨hne, _⟩
    intro hc
    rcases List.mem_cons.1 hc with hc' | hc'
    · exact hne x hx hc'.symm
    · exact hseen x (List.mem_cons_of_mem _ hx) hc'

theorem hookWsOpps_map_obj (l : List Opp) :
    hookWsOpps (l.map WsAlert.obj) = l := by
  induction l with
  | nil => rfl
  | cons a l ih =>
    simp only [List.map_cons, hookWsOpps, List.filterMap_cons] at *
    exact congrArg _ ih

/-- **C1.** The `opportunities` memo of `useArbitrage` reconciles the
WebSocket stream with the polled API snapshot exactly as specified: it
concatenates stream records before polled records, deduplicates by
`opportunity_id` keeping the first occurrence (iterating in order and
keeping an element only if its identity has not been seen yet, so a
stream record shadows a polled record with the same identity), and sorts
the result descending by `profit_percent`; on the spec's concrete
example `stream = [{id 1, profit 5}]`, `polled = [{id 1, profit 1},
{id 2, profit 9}]` it returns `[{id 2, profit 9}, {id 1, profit 5}]`. -/
theorem reconcile_dedups_and_sorts :
    (∀ s p, reconcile s p = sortByProfitDesc (dedupFirstSeen [] (hookWsOpps s ++ p)))
    ∧ (∀ s p, List.Sorted profitGE (reconcile s p))
    ∧ (∀ s p, List.Perm (reconcile s p) (dedupFirstSeen [] (hookWsOpps s ++ p)))
    ∧ (∀ s p o o', o ∈ reconcile s p → o' ∈ hookWsOpps s →
        o'.opportunity_id = o.opportunity_id → o ∈ hookWsOpps s)
    ∧ reconcile [WsAlert.obj ⟨1, "", 5⟩] [⟨1, "", 1⟩, ⟨2, "", 9⟩]
        = [⟨2, "", 9⟩, ⟨1, "", 5⟩] := by
  have hre : ∀ s p,
      reconcile s p = sortByProfitDesc (dedupFirstSeen [] (hookWsOpps s ++ p)) := by
    intro s p
    rw [reconcile, mergeDedup_eq_dedupFirstSeen]
  have hperm : ∀ s p,
      List.Perm (reconcile s p) (dedupFirstSeen [] (hookWsOpps s ++ p)) := by
    intro s p
    rw [hre]
    exact List.perm_insertionSort profitGE _
  refine ⟨hre, fun s p => ?_, hperm, fun s p o o' ho ho' hid => ?_, by decide⟩
  · rw [hre]
    exact List.sorted_insertionSort profitGE _
  · have hmem : o ∈ dedupFirstSeen [] (hookWsOpps s ++ p) :=
      (hperm s p).subset ho
    rcases mem_dedupFirstSeen_append hmem with h | ⟨_, hne⟩
    · exact h
    · exact absurd hid (hne o' ho')

/-- Witness for C1: the shadow conjunct applied to the one-record stream. -/
theorem reconcile_dedups_and_sorts_witness :
    (⟨1, "", 5⟩ : Opp) ∈ hookWsOpps [WsAlert.obj ⟨1, "", 5⟩] :=
  reconcile_dedups_and_sorts.2.2.2.1 [WsAlert.obj ⟨1, "", 5⟩] [] ⟨1, "", 5⟩ ⟨1, "", 5⟩
    (by decide) (by decide) rfl

theorem pairwise_ids_reconcile (s : List WsAlert) (p : List Opp) :
    (reconcile s p).Pairwise (fun a b => a.opportunity_id ≠ b.opportunity_id) := by
  have hperm := reconcile_dedups_and_sorts.2.2.1 s p
  exact (hperm.pairwise_iff fun h => Ne.symm h).2 (pairwise_dedupFirstSeen [] _)

/-- **C6.** Reconciliation is idempotent: feeding the output of
`reconcile(s, p)` back in as the stream, together with an empty polled
snapshot, reproduces the same list. -/
theorem reconcile_idempotent (s : List WsAlert) (p : List Opp) :
    reconcile ((reconcile s p).map WsAlert.obj) [] = reconcile s p := by
  rw [reconcile, hookWsOpps_map_obj, List.append_nil, mergeDedup_eq_dedupFirstSeen,
    dedupFirstSeen_of_distinct (fun x _ => List.not_mem_nil _) (pairwise_ids_reconcile s p)]
  exact List.Sorted.insertionSort_eq (reconcile_dedups_and_sorts.2.1 s p)

theorem filterMap_eq_of_parseAll_some :
    ∀ {l : List WsAlert} {ws : List Opp},
      parseAll l = some ws → l.filterMap parseAlert = ws := by
  intro l
  induction l with
  | nil =>
    intro ws h
    simp only [parseAll, Option.some.injEq] at h
    simp [h.symm]
  | cons a l ih =>
    intro ws h
    cases ha : parseAlert a with
    | none => rw [parseAll, ha] at h; cases parseAll l <;> cases h
    | some b =>
      cases hl : parseAll l with
      | none => rw [parseAll, ha, hl] at h; cases h
      | some bs =>
        rw [parseAll, ha, hl] at h
        cases h
        rw [List.filterMap_cons_some, ih hl]
        exact ha

/-- **C10 (counterexample).** On an alert list containing a string that is
not valid JSON, the two merge memos do not compute equal results:
`ArbitragePanel` throws (`none`) while `useArbitrage` drops the alert
and returns the empty merge. -/
theorem panel_hook_merge_disagree :
    allOpportunities [WsAlert.str none] [] ≠ some (reconcile [WsAlert.str none] [])
      ∧ allOpportunities [WsAlert.str none] [] = none
      ∧ reconcile [WsAlert.str none] [] = [] := by
  refine ⟨?_, rfl, rfl⟩
  intro h
  cases h

/-- **C10 (amended).** Whenever every string-encoded alert parses (the
panel's parse pass succeeds), `ArbitragePanel`'s `allOpportunities` memo
computes exactly the `useArbitrage` reconciliation result. -/
theorem panel_hook_merge_agree (alerts : List WsAlert) (apiOpps ws : List Opp)
    (h : parseAll alerts = some ws) :
    allOpportunities alerts apiOpps = some (reconcile alerts apiOpps) := by
  rw [allOpportunities, h, reconcile, hookWsOpps, filterMap_eq_of_parseAll_some h]
  rfl

/-- Witness for C10: a mixed object/string alert list whose strings all parse. -/
theorem panel_hook_merge_agree_witness :
    allOpportunities [WsAlert.obj ⟨1, "", 5⟩, WsAlert.str (some ⟨2, "", 3⟩)] [⟨2, "", 1⟩]
      = some (reconcile [WsAlert.obj ⟨1, "", 5⟩, WsAlert.str (some ⟨2, "", 3⟩)] [⟨2, "", 1⟩]) :=
  panel_hook_merge_agree _ _ [⟨1, "", 5⟩, ⟨2, "", 3⟩] (by decide)

theorem take_append_take {α : Type} (a b : List α) (n : Nat) :
    (a ++ b.take n).take n = (a ++ b).take n := by
  rw [List.take_append_eq_append_take, List.take_append_eq_append_take, List.take_take,
    Nat.min_eq_left (Nat.sub_le n a.length)]

theorem length_insertBuf {α : Type} (cap : Nat) (x : α) (l : List α) :
    (insertBuf cap x l).length ≤ cap := by
  rw [insertBuf, List.length_take]
  exact Nat.min_le_left _ _

theorem fillBuf_foldl {α : Type} (cap : Nat) :
    ∀ (xs l : List α), l.length ≤ cap →
      xs.foldl (fun l x => insertBuf cap x l) l = (xs.reverse ++ l).take cap := by
  intro xs
  induction xs with
  | nil =>
    intro l hl
    simp [List.take_of_length_le hl]
  | cons x xs ih =>
    intro l hl
    rw [List.foldl_cons, ih _ (length_insertBuf cap x l), insertBuf,
      take_append_take, List.reverse_cons, List.append_assoc, List.singleton_append]

/-- **C4.** Bounded event buffers behave as specified: inserting a
sequence of `N` elements into an initially empty buffer of capacity `C`
leaves exactly the `min(N, C)` most recently inserted elements in
newest-first order; one insertion never exceeds the capacity and, on a
full buffer of positive capacity, evicts the oldest element; and the
message router realises exactly these buffers with capacity 100 for
price updates and 50 for arbitrage alerts and yield updates. -/
theorem bounded_buffer_invariant :
    (∀ (α : Type) (cap : Nat) (xs : List α),
        fillBuf cap xs = xs.reverse.take cap
          ∧ (fillBuf cap xs).length = min xs.length cap)
    ∧ (∀ (α : Type) (cap : Nat) (x : α) (l : List α),
        (insertBuf cap x l).length ≤ cap)
    ∧ (∀ (α : Type) (cap : Nat) (x : α) (l : List α),
        0 < cap → l.length = cap → insertBuf cap x l = x :: l.dropLast)
    ∧ (∀ st d, (routeMsg (.price_update d) st).1.priceUpdates
          = insertBuf 100 d st.priceUpdates)
    ∧ (∀ st d, (routeMsg (.arbitrage_alert d) st).1.arbitrageAlerts
          = insertBuf 50 d st.arbitrageAlerts)
    ∧ (∀ st d, (routeMsg (.yield_update d) st).1.yieldUpdates
          = insertBuf 50 d st.yieldUpdates) := by
  refine ⟨fun α cap xs => ⟨?_, ?_⟩, fun α => length_insertBuf,
    fun α cap x l hcap hlen => ?_, fun st d => rfl, fun st d => rfl, fun st d => rfl⟩
  · rw [fillBuf, fillBuf_foldl cap xs [] (Nat.zero_le cap), List.append_nil]
  · rw [fillBuf, fillBuf_foldl cap xs [] (Nat.zero_le cap), List.append_nil,
      List.length_take, List.length_reverse, Nat.min_comm]
  · rcases cap with _ | c
    · exact absurd hcap (Nat.lt_irrefl 0)
    · rw [insertBuf, List.take_succ_cons, List.dropLast_eq_take, hlen]
      rfl

/-- Witness for C4: eviction on a full two-element arbitrage buffer. -/
theorem bounded_buffer_invariant_witness :
    insertBuf 2 (⟨1, "", 5⟩ : Opp) [⟨2, "", 1⟩, ⟨3, "", 2⟩]
      = ⟨1, "", 5⟩ :: ([⟨2, "", 1⟩, ⟨3, "", 2⟩] : List Opp).dropLast :=
  bounded_buffer_invariant.2.2.1 Opp 2 ⟨1, "", 5⟩ [⟨2, "", 1⟩, ⟨3, "", 2⟩]
    (by decide) (by decide)

/-- **C8.** On an `arbitrage_alert` message the router prepends the
payload to the arbitrage buffer and raises the high-value notification
exactly when `profit_percent > 2.0`; no other message type produces any
notification effect. -/
theorem router_arbitrage_notification :
    (∀ st d, routeMsg (.arbitrage_alert d) st
        = ({st with arbitrageAlerts := insertBuf 50 d st.arbitrageAlerts},
            if 2 < d.profit_percent then [Eff.notifyHighValue d] else []))
    ∧ (∀ st s, (routeMsg (.connected s) st).2 = [])
    ∧ (∀ st d, (routeMsg (.price_update d) st).2 = [])
    ∧ (∀ st d, (routeMsg (.yield_update d) st).2 = [])
    ∧ (∀ st chs, (routeMsg (.subscribed chs) st).2 = [])
    ∧ (∀ st, (routeMsg .pong st).2 = [])
    ∧ (∀ st t, (routeMsg (.unknown t) st).2 = [])
    ∧ (∀ st, (routeMsg .malformed st).2 = []) :=
  ⟨fun _ _ => rfl, fun _ _ => rfl, fun _ _ => rfl, fun _ _ => rfl,
    fun _ _ => rfl, fun _ => rfl, fun _ _ => rfl, fun _ => rfl⟩

/-- **C9.** Handling one inbound message mutates at most the buffer of
its declared type: each buffer-bearing case rewrites only its own
buffer (all other fields, the subscription set and the connected flag
included, are untouched), and every other message type leaves the state
exactly unchanged. -/
theorem router_frame_condition :
    (∀ st d, (routeMsg (.price_update d) st).1
        = {st with priceUpdates := insertBuf 100 d st.priceUpdates})
    ∧ (∀ st d, (routeMsg (.arbitrage_alert d) st).1
        = {st with arbitrageAlerts := insertBuf 50 d st.arbitrageAlerts})
    ∧ (∀ st d, (routeMsg (.yield_update d) st).1
        = {st with yieldUpdates := insertBuf 50 d st.yieldUpdates})
    ∧ (∀ st s, (routeMsg (.connected s) st).1 = st)
    ∧ (∀ st chs, (routeMsg (.subscribed chs) st).1 = st)
    ∧ (∀ st, (routeMsg .pong st).1 = st)
    ∧ (∀ st t, (routeMsg (.unknown t) st).1 = st)
    ∧ (∀ st, (routeMsg .malformed st).1 = st) :=
  ⟨fun _ _ => rfl, fun _ _ => rfl, fun _ _ => rfl, fun _ _ => rfl,
    fun _ _ => rfl, fun _ => rfl, fun _ _ => rfl, fun _ => rfl⟩

/-- **C2 (counterexample).** After a transport close that was not caused
by `disconnect()` (the `onclose` of a live connection), one reconnect
timer is pending; calling `disconnect()` before it fires does not cancel
it — the pending count stays 1 (the store's `ws` is already `null`, so
`disconnect()` is a complete no-op) — and when the timer fires a further
connect attempt occurs, contradicting the claim that none do. -/
theorem disconnect_does_not_cancel_reconnect :
    (run initWS [.connectReq, .opened, .closed, .disconnectReq]).1.pendingReconnects = 1
      ∧ (step (run initWS [.connectReq, .opened, .closed, .disconnectReq]).1
          .reconnectTimer).2 = [.connectAttempt] := by
  exact ⟨rfl, rfl⟩

/-- **C2 (amended).** `disconnect()` itself schedules nothing and, when a
transport exists, transitions to Disconnected; but every transport close
event schedules exactly one reconnect attempt (even one following an
explicit `disconnect()`), `disconnect()` never cancels a pending
reconnect timer, and a pending timer that fires performs a connect
attempt. -/
theorem disconnect_close_reconnect_semantics :
    (∀ st, (step st .disconnectReq).1.pendingReconnects = st.pendingReconnects)
    ∧ (∀ st, (step st .disconnectReq).2 = [])
    ∧ (∀ st, st.wsAlive = true →
        (step st .disconnectReq).1.connected = false
          ∧ (step st .disconnectReq).1.wsAlive = false)
    ∧ (∀ st, (step st .closed).1.pendingReconnects = st.pendingReconnects + 1)
    ∧ (∀ st, (step st .closed).2 = [.toastDisc, .scheduleReconnect])
    ∧ (∀ st, 0 < st.pendingReconnects →
        (step st .reconnectTimer).2 = [.connectAttempt]
          ∧ (step st .reconnectTimer).1.pendingReconnects = st.pendingReconnects - 1) := by
  refine ⟨fun st => ?_, fun st => ?_, fun st h => ?_, fun st => rfl, fun st => rfl,
    fun st h => ?_⟩
  · cases h : st.wsAlive <;> simp [step, h]
  · cases h : st.wsAlive <;> simp [step, h]
  · simp [step, h]
  · simp [step, h]

/-- Witness for C2 (amended): an explicitly disconnected live connection
ends Disconnected, and a pending timer fires a connect attempt. -/
theorem disconnect_close_reconnect_semantics_witness :
    ((step {initWS with wsAlive := true} .disconnectReq).1.connected = false
        ∧ (step {initWS with wsAlive := true} .disconnectReq).1.wsAlive = false)
      ∧ ((step {initWS with pendingReconnects := 1} .reconnectTimer).2 = [.connectAttempt]
        ∧ (step {initWS with pendingReconnects := 1}
            .reconnectTimer).1.pendingReconnects = 1 - 1) :=
  ⟨disconnect_close_reconnect_semantics.2.2.1 {initWS with wsAlive := true} rfl,
    disconnect_close_reconnect_semantics.2.2.2.2.2 {initWS with pendingReconnects := 1}
      (by decide)⟩

/-- **C3 (counterexample).** Subscribing to `["prices"]` while
Disconnected and then connecting produces no outbound subscribe request
at all and leaves the Subscription Registry empty: the `subscribe` guard
`ws && ws.readyState === OPEN` makes the offline call a complete no-op,
so there is nothing for the replay-on-connect logic to replay. -/
theorem offline_subscribe_is_noop :
    (run initWS [.subscribeReq ["prices"], .connectReq, .opened]).1.subscriptions = []
      ∧ (run initWS [.subscribeReq ["prices"], .connectReq, .opened]).2
          = [.connectAttempt, .toastConn] := by
  exact ⟨rfl, rfl⟩

/-- **C3 (amended).** `subscribe`/`unsubscribe` update the Subscription
Registry and send the corresponding request only when the transport
exists and is open; otherwise the call is a complete no-op (the registry
is NOT updated). On `onopen` the registry is replayed as a single
subscribe request exactly when it is nonempty. -/
theorem subscribe_requires_open_transport :
    (∀ st chs, st.wsAlive = true → st.wsOpen = true →
        step st (.subscribeReq chs)
          = ({st with subscriptions := setUnion st.subscriptions chs},
              [.send (.sub chs)]))
    ∧ (∀ st chs, ¬(st.wsAlive = true ∧ st.wsOpen = true) →
        step st (.subscribeReq chs) = (st, []))
    ∧ (∀ st chs, st.wsAlive = true → st.wsOpen = true →
        step st (.unsubscribeReq chs)
          = ({st with subscriptions := st.subscriptions.filter (fun c => c ∉ chs)},
              [.send (.unsub chs)]))
    ∧ (∀ st chs, ¬(st.wsAlive = true ∧ st.wsOpen = true) →
        step st (.unsubscribeReq chs) = (st, []))
    ∧ (∀ st, step st .opened
        = ({st with wsOpen := true, connected := true},
            .toastConn :: (if st.subscriptions.isEmpty then []
              else [.send (.sub st.subscriptions)]))) := by
  refine ⟨fun st chs h1 h2 => ?_, fun st chs h => ?_, fun st chs h1 h2 => ?_,
    fun st chs h => ?_, fun st => rfl⟩
  · simp [step, h1, h2]
  · simp [step, h]
  · simp [step, h1, h2]
  · simp [step, h]

/-- Witness for C3 (amended): subscribing on an open transport unions the
registry and sends the request. -/
theorem subscribe_requires_open_transport_witness :
    step ⟨true, true, false, [], [], [], [], 0⟩ (.subscribeReq ["prices"])
      = (⟨true, true, false, [], [], [], ["prices"], 0⟩, [.send (.sub ["prices"])]) :=
  subscribe_requires_open_transport.1 ⟨true, true, false, [], [], [], [], 0⟩
    ["prices"] rfl rfl

theorem findGroup_upsertGroup (m : List (String × Grp)) (key : String)
    (t : Option Rat) (a : Rat) (k : String) :
    findGroup k (upsertGroup m key t a)
      = if key = k then some (((findGroup k m).getD Grp.zero).bump t a)
        else findGroup k m := by
  induction m with
  | nil =>
    by_cases hk : key = k <;> simp [upsertGroup, findGroup, hk]
  | cons p m ih =>
    obtain ⟨k', g⟩ := p
    by_cases h1 : k' = key
    · subst h1
      by_cases hk : k' = k
      · subst hk
        simp [upsertGroup, findGroup]
      · simp [upsertGroup, findGroup, hk]
    · by_cases hk : k' = k
      · subst hk
        have hke : ¬key = k' := fun h => h1 h.symm
        simp [upsertGroup, findGroup, h1, hke]
      · simp [upsertGroup, findGroup, h1, hk, ih]

theorem bumpAll_spec : ∀ (rs : List YieldRec) (g : Grp),
    bumpAll g rs
      = ⟨g.count + rs.length,
          rs.foldl (fun s r => jsAdd s (parseFloatJs r.tvl)) g.totalTvl,
          rs.foldl (fun s r => s + r.apy) g.avgApy⟩ := by
  intro rs
  induction rs with
  | nil => intro g; rfl
  | cons r rs ih =>
    intro g
    show bumpAll (g.bump (parseFloatJs r.tvl) r.apy) rs = _
    rw [ih]
    refine congrArg (fun n => Grp.mk n _ _) ?_
    simp [Grp.bump, Nat.add_comm, Nat.add_assoc, Nat.add_left_comm]

theorem findGroup_groupAccum (keyOf : YieldRec → String) :
    ∀ (rs : List YieldRec) (m : List (String × Grp)) (k : String),
      findGroup k
          (rs.foldl (fun m r => upsertGroup m (keyOf r) (parseFloatJs r.tvl) r.apy) m)
        = match findGroup k m with
          | some g => some (bumpAll g (rs.filter (fun r => keyOf r = k)))
          | none =>
            if (rs.filter (fun r => keyOf r = k)).isEmpty then none
            else some (bumpAll Grp.zero (rs.filter (fun r => keyOf r = k))) := by
  intro rs
  induction rs with
  | nil =>
    intro m k
    cases hm : findGroup k m <;> simp [bumpAll, hm]
  | cons r rs ih =>
    intro m k
    rw [List.foldl_cons, ih]
    rw [findGroup_upsertGroup]
    by_cases hk : keyOf r = k
    · rw [if_pos hk, List.filter_cons_of_pos (by simpa using hk)]
      cases hm : findGroup k m with
      | some g => simp [bumpAll]
      | none => simp [bumpAll]
    · rw [if_neg hk, List.filter_cons_of_neg (by simpa using hk)]

theorem findGroup_finalizeGroups (m : List (String × Grp)) (k : String) :
    findGroup k (finalizeGroups m)
      = (findGroup k m).map
          (fun g => ⟨g.count, g.totalTvl, g.avgApy / (g.count : Rat)⟩) := by
  induction m with
  | nil => rfl
  | cons p m ih =>
    by_cases hk : p.1 = k
    · simp [finalizeGroups, findGroup, hk]
    · simp only [finalizeGroups, findGroup, hk, List.map_cons, if_false]
      simpa [finalizeGroups] using ih

theorem foldl_jsAdd_none (f : YieldRec → Option Rat) :
    ∀ rs : List YieldRec, rs.foldl (fun s o => jsAdd s (f o)) none = none := by
  intro rs
  induction rs with
  | nil => rfl
  | cons r rs ih =>
    rw [List.foldl_cons]
    cases f r <;> exact ih

theorem foldl_jsAdd_of_mem_none {rs : List YieldRec}
    (h : ∃ r ∈ rs, parseFloatJs r.tvl = none) :
    ∀ s, rs.foldl (fun s o => jsAdd s (parseFloatJs o.tvl)) s = none := by
  induction rs with
  | nil => rcases h with ⟨r, hr, _⟩; cases hr
  | cons r rs ih =>
    intro s
    rw [List.foldl_cons]
    by_cases hr : parseFloatJs r.tvl = none
    · rw [hr]
      cases s <;> exact foldl_jsAdd_none _ rs
    · rcases h with ⟨r', hr', hr'n⟩
      rcases List.mem_cons.1 hr' with rfl | hr'
      · exact absurd hr'n hr
      · exact ih ⟨r', hr', hr'n⟩ _

/-- **C7.** The yield aggregation memo groups records by the stable keys
`protocol_name` and `chain`: for any key function and any key, the
rollup entry holds the count of the records with that key, their total
TVL and their mean APY (and is absent when no record has the key); the
empty input reports all-zero statistics; and on the spec's example
`[{protocol "A", tvl 100, apy 10}, {protocol "A", tvl 300, apy 20}]`
the per-protocol rollup for `"A"` is count 2, totalTvl 400, avgApy 15. -/
theorem yield_rollup_spec :
    (∀ keyOf rs k,
        findGroup k (rollup keyOf rs)
          = if (rs.filter (fun r => keyOf r = k)).isEmpty then none
            else some (groupSpec keyOf rs k))
    ∧ aggregateYield [] = ⟨0, 0, 0, some 0, [], []⟩
    ∧ (aggregateYield [⟨"A", "ethereum", 10, .num 100⟩,
          ⟨"A", "ethereum", 20, .num 300⟩]).byProtocol
        = [("A", ⟨2, some 400, 15⟩)] := by
  refine ⟨fun keyOf rs k => ?_, rfl, ?_⟩
  · rw [rollup, findGroup_finalizeGroups, groupAccum, findGroup_groupAccum]
    simp only [findGroup]
    cases he : (rs.filter (fun r => keyOf r = k)).isEmpty with
    | true => simp [he]
    | false =>
      simp only [he, Bool.false_eq_true, if_false, Option.map_some]
      rw [bumpAll_spec]
      simp [groupSpec, Grp.zero]
  · norm_num [aggregateYield, rollup, groupAccum, upsertGroup, finalizeGroups,
      Grp.bump, Grp.zero, parseFloatJs, jsAdd]

/-- **C5 (counterexample).** A yield record whose `tvl` fails numeric
normalization (`parseFloat` gives NaN) is NOT excluded from aggregation:
with the single record `{protocol "A", apy 10, tvl "not-a-number"}` the
stats count is 1 (not the 0 that exclusion would give) and the total TVL
is NaN rather than the 0 of an empty aggregation. -/
theorem malformed_tvl_not_excluded :
    (aggregateYield [⟨"A", "ethereum", 10, .str none⟩]).count = 1
      ∧ (aggregateYield []).count = 0
      ∧ (aggregateYield [⟨"A", "ethereum", 10, .str none⟩]).totalTvl = none
      ∧ (aggregateYield []).totalTvl = some 0 :=
  ⟨rfl, rfl, rfl, rfl⟩

/-- **C5 (amended).** Aggregation never raises (it is a total function),
but a record whose `tvl` fails normalization is included, not excluded:
every record is counted (`count` is always the full input length), and
one unparseable `tvl` makes the aggregate total TVL NaN. -/
theorem malformed_tvl_poisons_totals (rs : List YieldRec) :
    (aggregateYield rs).count = rs.length
      ∧ ((∃ r ∈ rs, parseFloatJs r.tvl = none) →
          (aggregateYield rs).totalTvl = none) := by
  cases rs with
  | nil =>
    exact ⟨rfl, fun h => absurd h (by simp)⟩
  | cons r rs =>
    refine ⟨rfl, fun h => ?_⟩
    show List.foldl _ (some 0) _ = none
    exact foldl_jsAdd_of_mem_none h _

/-- Witness for C5 (amended): the single-malformed-record aggregation. -/
theorem malformed_tvl_poisons_totals_witness :
    (aggregateYield [⟨"A", "ethereum", 10, JsNum.str none⟩]).count
        = ([⟨"A", "ethereum", 10, JsNum.str none⟩] : List YieldRec).length
      ∧ (aggregateYield [⟨"A", "ethereum", 10, JsNum.str none⟩]).totalTvl = none :=
  ⟨(malformed_tvl_poisons_totals [⟨"A", "ethereum", 10, JsNum.str none⟩]).1,
    (malformed_tvl_poisons_totals [⟨"A", "ethereum", 10, JsNum.str none⟩]).2
      (by decide)⟩

end DeFi
